import Mathlib

/-!
Shallow embedding of the quadtree renderer from src/main.rs.

The core of the program is the recursive function `quadtree` (main.rs lines
62-128).  It computes the average color of a rectangle of the input RGBA
buffer with u32 accumulators, draws a one-pixel border into the output buffer
when the averaged channel sum exceeds a threshold, and recurses into four
quadrants while both rectangle extents exceed `rect_min_size`.

Machine integers are modelled as `Nat` with an explicit `% 2 ^ 32` where the
Rust code uses wrapping u32 arithmetic, and `% 256` where a value is cast
`as u8`.  Buffers are `List Nat` of bytes; reads use `List.getD` and writes
`List.set`.  The recursion is embedded with an explicit fuel parameter
returning `Option`, since for `rect_min_size = 0` the Rust recursion does not
terminate; `none` means the fuel ran out.
-/

namespace Quadtree

/-- Modulus of unsigned 32-bit arithmetic. -/
def U32 : Nat := 2 ^ 32

/-- Rust `checked_div(..).unwrap_or_default()`: zero when the divisor is zero. -/
def checkedDivD (a b : Nat) : Nat := if b = 0 then 0 else a / b

/-- Rust `usize::abs_diff`. -/
def abs_diff (a b : Nat) : Nat := if a < b then b - a else a - b

/-- Mathematical (unwrapped) sum of channel `c` over pixels with `y` in
`[y1, y2)` and `x` in `[x1, x2)`, reading `input[y * buffer_width * 4 + x * 4 + c]`
(main.rs lines 79-87; `c = 0` red, `c = 1` green, `c = 2` blue). -/
def chanSum (input : List Nat) (x1 y1 x2 y2 buffer_width c : Nat) : Nat :=
  ∑ y in Finset.Ico y1 y2, ∑ x in Finset.Ico x1 x2,
    input.getD (y * buffer_width * 4 + x * 4 + c) 0

/-- The loop counter `count`: one per sampled pixel (main.rs line 85). -/
def pixCount (x1 y1 x2 y2 : Nat) : Nat :=
  ∑ _y in Finset.Ico y1 y2, ∑ _x in Finset.Ico x1 x2, 1

/-- The averaged channel value computed at main.rs lines 88-90: the wrapped u32
channel sum checked-divided by the wrapped u32 pixel count. -/
def avgChan (input : List Nat) (x1 y1 x2 y2 buffer_width c : Nat) : Nat :=
  checkedDivD (chanSum input x1 y1 x2 y2 buffer_width c % U32) (pixCount x1 y1 x2 y2 % U32)

/-- The `set_color` closure (main.rs lines 94-99): byte0 = b, byte1 = g,
byte2 = r, byte3 = a, written in the source order. -/
def set_color (output : List Nat) (index r g b a : Nat) : List Nat :=
  (((output.set (index + 3) a).set (index + 2) r).set (index + 1) g).set index b

/-- The first border loop (main.rs lines 102-108): for `x` in `[x1, x2)` write
the color at row `y1` and at row `y2`. -/
def drawRows (output : List Nat) (x1 y1 x2 y2 buffer_width r g b : Nat) : List Nat :=
  (List.range' x1 (x2 - x1)).foldl
    (fun out x =>
      set_color (set_color out (y1 * buffer_width * 4 + x * 4) r g b 255)
        (y2 * buffer_width * 4 + x * 4) r g b 255)
    output

/-- The second border loop (main.rs lines 109-115): for `y` in `[y1, y2)` write
the color at column `x1` and at column `x2`. -/
def drawCols (output : List Nat) (x1 y1 x2 y2 buffer_width r g b : Nat) : List Nat :=
  (List.range' y1 (y2 - y1)).foldl
    (fun out y =>
      set_color (set_color out (y * buffer_width * 4 + x1 * 4) r g b 255)
        (y * buffer_width * 4 + x2 * 4) r g b 255)
    output

/-- One non-recursive pass of `quadtree` (main.rs lines 73-116): compute the
averages and, when the wrapped u32 sum of the averages exceeds the threshold,
draw the border (each channel stored `as u8`, alpha 255). -/
def renderStep (input output : List Nat) (x1 y1 x2 y2 buffer_width color_threshold : Nat) :
    List Nat :=
  let r := avgChan input x1 y1 x2 y2 buffer_width 0
  let g := avgChan input x1 y1 x2 y2 buffer_width 1
  let b := avgChan input x1 y1 x2 y2 buffer_width 2
  if (r + g + b) % U32 > color_threshold then
    drawCols (drawRows output x1 y1 x2 y2 buffer_width (r % 256) (g % 256) (b % 256))
      x1 y1 x2 y2 buffer_width (r % 256) (g % 256) (b % 256)
  else output

/-- The recursive `quadtree` procedure (main.rs lines 62-128), with fuel.
`none` means the fuel was exhausted before the recursion finished. -/
def quadtree (input : List Nat) (fuel : Nat) (output : List Nat)
    (x1 y1 x2 y2 buffer_width color_threshold rect_min_size : Nat) : Option (List Nat) :=
  match fuel with
  | 0 => none
  | fuel + 1 =>
    let out1 := renderStep input output x1 y1 x2 y2 buffer_width color_threshold
    if abs_diff x1 x2 > rect_min_size ∧ abs_diff y1 y2 > rect_min_size then
      let mid_x := (x1 + x2) / 2
      let mid_y := (y1 + y2) / 2
      (quadtree input fuel out1 x1 y1 mid_x mid_y buffer_width color_threshold
          rect_min_size).bind fun o1 =>
      (quadtree input fuel o1 mid_x y1 x2 mid_y buffer_width color_threshold
          rect_min_size).bind fun o2 =>
      (quadtree input fuel o2 x1 mid_y mid_x y2 buffer_width color_threshold
          rect_min_size).bind fun o3 =>
      quadtree input fuel o3 mid_x mid_y x2 y2 buffer_width color_threshold rect_min_size
    else some out1

/-- The call terminates: some fuel suffices to run the recursion to completion. -/
def Terminates (input output : List Nat) (x1 y1 x2 y2 buffer_width color_threshold
    rect_min_size : Nat) : Prop :=
  ∃ fuel, (quadtree input fuel output x1 y1 x2 y2 buffer_width color_threshold
    rect_min_size).isSome = true

/-- Specification-side average: the arithmetic mean, truncated toward zero, of
the channel-`c` values of the pixels strictly inside `[x1, x2) × [y1, y2)`. -/
def specMean (input : List Nat) (x1 y1 x2 y2 buffer_width c : Nat) : Nat :=
  (∑ q in Finset.Ico y1 y2 ×ˢ Finset.Ico x1 x2,
    input.getD (q.1 * buffer_width * 4 + q.2 * 4 + c) 0) /
  (Finset.Ico y1 y2 ×ˢ Finset.Ico x1 x2).card

/-- A 4201 by 4201 all-white RGBA image (every byte 255). -/
def bigInput : List Nat := List.replicate (4201 * 4201 * 4) 255

/-- A 4294967298 by 2 image, all bytes 255 except the red bytes of the pixels
(0,0) and (1,0), which are zero (byte indices 0 and 4). -/
def cxInput : List Nat := ((List.replicate (4294967298 * 2 * 4) 255).set 0 0).set 4 0

/-- A zero-initialized output buffer of the same length as `cxInput`. -/
def cxOutput : List Nat := List.replicate (4294967298 * 2 * 4) 0

/-- Each pixel of `out1` is either byte-for-byte the pixel of `out0`, or has its
alpha byte equal to 255; and lengths agree. -/
def PixPreserve (out0 out1 : List Nat) : Prop :=
  out1.length = out0.length ∧
    ∀ p : Nat, (∀ j, j < 4 → out1.getD (4 * p + j) 0 = out0.getD (4 * p + j) 0) ∨
      out1.getD (4 * p + 3) 0 = 255

/-- Specification of the border pass: when the sum of the three averaged
channels strictly exceeds the threshold, every border byte of the rectangle
holds the average color in blue, green, red, 255 order; when the sum is at
most the threshold, the output buffer is returned unchanged. -/
def BorderSpec (input output : List Nat) (x1 y1 x2 y2 bw ct : Nat) : Prop :=
  (ct < avgChan input x1 y1 x2 y2 bw 0 + avgChan input x1 y1 x2 y2 bw 1 +
      avgChan input x1 y1 x2 y2 bw 2 →
    ∀ px py j : Nat, j < 4 →
      ((x1 ≤ px ∧ px < x2 ∧ (py = y1 ∨ py = y2)) ∨
        ((px = x1 ∨ px = x2) ∧ y1 ≤ py ∧ py < y2)) →
      (renderStep input output x1 y1 x2 y2 bw ct).getD (py * bw * 4 + px * 4 + j) 0 =
        [avgChan input x1 y1 x2 y2 bw 2, avgChan input x1 y1 x2 y2 bw 1,
          avgChan input x1 y1 x2 y2 bw 0, 255].getD j 0) ∧
  (avgChan input x1 y1 x2 y2 bw 0 + avgChan input x1 y1 x2 y2 bw 1 +
      avgChan input x1 y1 x2 y2 bw 2 ≤ ct →
    renderStep input output x1 y1 x2 y2 bw ct = output)

/-! ### List helpers -/

theorem getD_set (l : List Nat) (i j v : Nat) :
    (l.set i v).getD j 0 = if i = j ∧ j < l.length then v else l.getD j 0 := by
  induction l generalizing i j with
  | nil => simp
  | cons hd tl ih =>
    cases i with
    | zero =>
      cases j with
      | zero => simp
      | succ m => simp
    | succ n =>
      cases j with
      | zero => simp
      | succ m =>
        have h := ih n m
        simp only [List.set_cons_succ, List.getD_cons_succ, List.length_cons, h]
        split_ifs <;> first | rfl | omega

theorem getD_replicate (n v i : Nat) :
    (List.replicate n v).getD i 0 = if i < n then v else 0 := by
  induction n generalizing i with
  | zero => simp
  | succ m ih =>
    cases i with
    | zero => simp [List.replicate_succ]
    | succ k =>
      rw [List.replicate_succ, List.getD_cons_succ, ih]
      simp [Nat.succ_lt_succ_iff]

theorem getD_oob (l : List Nat) (i : Nat) (h : l.length ≤ i) : l.getD i 0 = 0 := by
  induction l generalizing i with
  | nil => simp
  | cons hd tl ih =>
    cases i with
    | zero => simp at h
    | succ m => simpa using ih m (by simpa using h)

theorem getD_lt_256 (l : List Nat) (hb : ∀ v ∈ l, v < 256) (i : Nat) : l.getD i 0 < 256 := by
  induction l generalizing i with
  | nil => simp
  | cons hd tl ih =>
    cases i with
    | zero => exact hb hd (by simp)
    | succ m => exact ih (fun v hv => hb v (by simp [hv])) m

theorem length_set_color (output : List Nat) (index r g b a : Nat) :
    (Quadtree.set_color output index r g b a).length = output.length := by
  simp [Quadtree.set_color]

theorem getD_set_color (out : List Nat) (idx r g b a i : Nat) :
    (Quadtree.set_color out idx r g b a).getD i 0 =
      if i = idx ∧ i < out.length then b
      else if i = idx + 1 ∧ i < out.length then g
      else if i = idx + 2 ∧ i < out.length then r
      else if i = idx + 3 ∧ i < out.length then a
      else out.getD i 0 := by
  simp only [Quadtree.set_color, getD_set, List.length_set]
  split_ifs <;> first | rfl | omega

/-! ### Index arithmetic: byte index `y * bw * 4 + x * 4 + k` versus the pixel
decomposition `(i / 4 % bw, i / 4 / bw, i % 4)`. -/

theorem index_form (bw y x k : Nat) (hk : k < 4) (hx : x < bw) :
    (y * bw * 4 + x * 4 + k) / 4 % bw = x ∧ (y * bw * 4 + x * 4 + k) / 4 / bw = y ∧
      (y * bw * 4 + x * 4 + k) % 4 = k := by
  have hbw : 0 < bw := by omega
  have h4 : y * bw * 4 + x * 4 + k = 4 * (bw * y + x) + k := by ring
  have hdiv : (y * bw * 4 + x * 4 + k) / 4 = bw * y + x := by
    rw [h4, Nat.mul_add_div (by norm_num)]
    simp [Nat.div_eq_of_lt hk]
  have hmod : (y * bw * 4 + x * 4 + k) % 4 = k := by
    rw [h4, Nat.mul_add_mod]
    exact Nat.mod_eq_of_lt hk
  refine ⟨?_, ?_, hmod⟩
  · rw [hdiv, Nat.mul_add_mod]
    exact Nat.mod_eq_of_lt hx
  · rw [hdiv, Nat.mul_add_div hbw]
    simp [Nat.div_eq_of_lt hx]

theorem index_unique (bw y x k i : Nat) (_hx : x < bw)
    (h1 : i / 4 % bw = x) (h2 : i / 4 / bw = y) (h3 : i % 4 = k) :
    i = y * bw * 4 + x * 4 + k := by
  have hp : bw * (i / 4 / bw) + i / 4 % bw = i / 4 := Nat.div_add_mod _ _
  have hi : 4 * (i / 4) + i % 4 = i := Nat.div_add_mod _ _
  rw [h1, h2] at hp
  rw [h3] at hi
  have hr : y * bw * 4 + x * 4 + k = 4 * (bw * y + x) + k := by ring
  omega

theorem hit_iff (bw y a i : Nat) (ha : a < bw) :
    (y * bw * 4 + a * 4 ≤ i ∧ i < y * bw * 4 + a * 4 + 4) ↔
      (i / 4 % bw = a ∧ i / 4 / bw = y) := by
  constructor
  · rintro ⟨h1, h2⟩
    have hk : i - (y * bw * 4 + a * 4) < 4 := by omega
    have hi : i = y * bw * 4 + a * 4 + (i - (y * bw * 4 + a * 4)) := by omega
    obtain ⟨e1, e2, _⟩ := index_form bw y a (i - (y * bw * 4 + a * 4)) hk ha
    constructor
    · conv_lhs => rw [hi]
      exact e1
    · conv_lhs => rw [hi]
      exact e2
  · rintro ⟨h1, h2⟩
    have hk4 : i % 4 < 4 := Nat.mod_lt i (by norm_num)
    have hu := index_unique bw y a (i % 4) i ha h1 h2 rfl
    omega

theorem sub_eq_mod (bw y a i : Nat) (ha : a < bw)
    (h1 : i / 4 % bw = a) (h2 : i / 4 / bw = y) :
    i - (y * bw * 4 + a * 4) = i % 4 := by
  have hu := index_unique bw y a (i % 4) i ha h1 h2 rfl
  omega

theorem index_lt (bw hgt x y j : Nat) (hx : x < bw) (hy : y < hgt) (hj : j < 4) :
    y * bw * 4 + x * 4 + j < bw * hgt * 4 := by
  have h1 : bw * y + x < bw * hgt := by
    calc bw * y + x < bw * y + bw := by omega
    _ = bw * (y + 1) := by ring
    _ ≤ bw * hgt := Nat.mul_le_mul_left _ (by omega)
  have h2 : y * bw * 4 + x * 4 + j = 4 * (bw * y + x) + j := by ring
  have h3 : bw * hgt * 4 = 4 * (bw * hgt) := by ring
  omega

theorem getD_set_color' (out : List Nat) (idx r g b a i : Nat) :
    (Quadtree.set_color out idx r g b a).getD i 0 =
      if idx ≤ i ∧ i < idx + 4 ∧ i < out.length then [b, g, r, a].getD (i - idx) 0
      else out.getD i 0 := by
  simp only [Quadtree.set_color, getD_set, List.length_set]
  by_cases hl : i < out.length
  · by_cases h0 : i = idx
    · rw [if_pos ⟨h0.symm, hl⟩, if_pos ⟨by omega, by omega, hl⟩]
      have h : i - idx = 0 := by omega
      rw [h]
      rfl
    · rw [if_neg (by omega)]
      by_cases h1 : i = idx + 1
      · rw [if_pos ⟨h1.symm, hl⟩, if_pos ⟨by omega, by omega, hl⟩]
        have h : i - idx = 1 := by omega
        rw [h]
        rfl
      · rw [if_neg (by omega)]
        by_cases h2 : i = idx + 2
        · rw [if_pos ⟨h2.symm, hl⟩, if_pos ⟨by omega, by omega, hl⟩]
          have h : i - idx = 2 := by omega
          rw [h]
          rfl
        · rw [if_neg (by omega)]
          by_cases h3 : i = idx + 3
          · rw [if_pos ⟨h3.symm, hl⟩, if_pos ⟨by omega, by omega, hl⟩]
            have h : i - idx = 3 := by omega
            rw [h]
            rfl
          · rw [if_neg (by omega), if_neg (by omega)]
  · rw [if_neg (by omega), if_neg (by omega), if_neg (by omega), if_neg (by omega),
      if_neg (by omega)]

/-! ### Pointwise characterization of the two border loops -/

theorem getD_rowsAux (y1 y2 bw r g b : Nat) (n : Nat) :
    ∀ (a : Nat) (out : List Nat) (i : Nat), (∀ x, a ≤ x → x < a + n → x < bw) →
      ((List.range' a n).foldl
          (fun out x =>
            Quadtree.set_color (Quadtree.set_color out (y1 * bw * 4 + x * 4) r g b 255)
              (y2 * bw * 4 + x * 4) r g b 255) out).getD i 0 =
        if i < out.length ∧ a ≤ i / 4 % bw ∧ i / 4 % bw < a + n ∧
            (i / 4 / bw = y1 ∨ i / 4 / bw = y2) then
          [b, g, r, 255].getD (i % 4) 0
        else out.getD i 0 := by
  induction n with
  | zero =>
    intro a out i _
    rw [show List.range' a 0 = [] from rfl, List.foldl_nil, if_neg]
    rintro ⟨-, h1, h2, -⟩
    omega
  | succ m ih =>
    intro a out i hbnd
    have hab : a < bw := hbnd a le_rfl (by omega)
    simp only [List.range'_succ, List.foldl_cons]
    rw [ih (a + 1) _ i (fun x hx1 hx2 => hbnd x (by omega) (by omega))]
    simp only [length_set_color]
    rw [getD_set_color', getD_set_color']
    simp only [length_set_color]
    have hit2 := hit_iff bw y2 a i hab
    have hit1 := hit_iff bw y1 a i hab
    by_cases hC : a + 1 ≤ i / 4 % bw ∧ i / 4 % bw < a + 1 + m
    · by_cases hT : i < out.length ∧ (i / 4 / bw = y1 ∨ i / 4 / bw = y2)
      · have e1 : i < out.length ∧ a + 1 ≤ i / 4 % bw ∧ i / 4 % bw < a + 1 + m ∧
            (i / 4 / bw = y1 ∨ i / 4 / bw = y2) := ⟨hT.1, hC.1, hC.2, hT.2⟩
        have e2 : i < out.length ∧ a ≤ i / 4 % bw ∧ i / 4 % bw < a + (m + 1) ∧
            (i / 4 / bw = y1 ∨ i / 4 / bw = y2) := ⟨hT.1, by omega, by omega, hT.2⟩
        rw [if_pos e1, if_pos e2]
      · have e1 : ¬(i < out.length ∧ a + 1 ≤ i / 4 % bw ∧ i / 4 % bw < a + 1 + m ∧
            (i / 4 / bw = y1 ∨ i / 4 / bw = y2)) := fun hh => hT ⟨hh.1, hh.2.2.2⟩
        have e2 : ¬(y2 * bw * 4 + a * 4 ≤ i ∧ i < y2 * bw * 4 + a * 4 + 4 ∧
            i < out.length) := fun hh => by have h := hit2.mp ⟨hh.1, hh.2.1⟩; omega
        have e3 : ¬(y1 * bw * 4 + a * 4 ≤ i ∧ i < y1 * bw * 4 + a * 4 + 4 ∧
            i < out.length) := fun hh => by have h := hit1.mp ⟨hh.1, hh.2.1⟩; omega
        have e4 : ¬(i < out.length ∧ a ≤ i / 4 % bw ∧ i / 4 % bw < a + (m + 1) ∧
            (i / 4 / bw = y1 ∨ i / 4 / bw = y2)) := fun hh => hT ⟨hh.1, hh.2.2.2⟩
        rw [if_neg e1, if_neg e2, if_neg e3, if_neg e4]
    · by_cases hA : i / 4 % bw = a ∧ i < out.length ∧ (i / 4 / bw = y1 ∨ i / 4 / bw = y2)
      · have e1 : ¬(i < out.length ∧ a + 1 ≤ i / 4 % bw ∧ i / 4 % bw < a + 1 + m ∧
            (i / 4 / bw = y1 ∨ i / 4 / bw = y2)) := fun hh => by omega
        have e2 : i < out.length ∧ a ≤ i / 4 % bw ∧ i / 4 % bw < a + (m + 1) ∧
            (i / 4 / bw = y1 ∨ i / 4 / bw = y2) := ⟨hA.2.1, by omega, by omega, hA.2.2⟩
        rw [if_neg e1, if_pos e2]
        by_cases hy2 : i / 4 / bw = y2
        · have hw2 := hit2.mpr ⟨hA.1, hy2⟩
          have e5 : y2 * bw * 4 + a * 4 ≤ i ∧ i < y2 * bw * 4 + a * 4 + 4 ∧
              i < out.length := ⟨hw2.1, hw2.2, hA.2.1⟩
          rw [if_pos e5, sub_eq_mod bw y2 a i hab hA.1 hy2]
        · have hy1 : i / 4 / bw = y1 := by
            rcases hA.2.2 with h | h
            · exact h
            · exact absurd h hy2
          have hw1 := hit1.mpr ⟨hA.1, hy1⟩
          have e5 : ¬(y2 * bw * 4 + a * 4 ≤ i ∧ i < y2 * bw * 4 + a * 4 + 4 ∧
              i < out.length) := fun hh => hy2 (hit2.mp ⟨hh.1, hh.2.1⟩).2
          have e6 : y1 * bw * 4 + a * 4 ≤ i ∧ i < y1 * bw * 4 + a * 4 + 4 ∧
              i < out.length := ⟨hw1.1, hw1.2, hA.2.1⟩
          rw [if_neg e5, if_pos e6, sub_eq_mod bw y1 a i hab hA.1 hy1]
      · have e1 : ¬(i < out.length ∧ a + 1 ≤ i / 4 % bw ∧ i / 4 % bw < a + 1 + m ∧
            (i / 4 / bw = y1 ∨ i / 4 / bw = y2)) := fun hh => hC ⟨hh.2.1, hh.2.2.1⟩
        have e2 : ¬(y2 * bw * 4 + a * 4 ≤ i ∧ i < y2 * bw * 4 + a * 4 + 4 ∧
            i < out.length) := fun hh => by
          have h := hit2.mp ⟨hh.1, hh.2.1⟩
          exact hA ⟨h.1, hh.2.2, Or.inr h.2⟩
        have e3 : ¬(y1 * bw * 4 + a * 4 ≤ i ∧ i < y1 * bw * 4 + a * 4 + 4 ∧
            i < out.length) := fun hh => by
          have h := hit1.mp ⟨hh.1, hh.2.1⟩
          exact hA ⟨h.1, hh.2.2, Or.inl h.2⟩
        have e4 : ¬(i < out.length ∧ a ≤ i / 4 % bw ∧ i / 4 % bw < a + (m + 1) ∧
            (i / 4 / bw = y1 ∨ i / 4 / bw = y2)) := fun hh => by
          rcases eq_or_ne (i / 4 % bw) a with he | hne
          · exact hA ⟨he, hh.1, hh.2.2.2⟩
          · exact hC ⟨by omega, by omega⟩
        rw [if_neg e1, if_neg e2, if_neg e3, if_neg e4]

theorem getD_colsAux (x1 x2 bw r g b : Nat) (n : Nat) :
    ∀ (a : Nat) (out : List Nat) (i : Nat), x1 < bw → x2 < bw →
      ((List.range' a n).foldl
          (fun out y =>
            Quadtree.set_color (Quadtree.set_color out (y * bw * 4 + x1 * 4) r g b 255)
              (y * bw * 4 + x2 * 4) r g b 255) out).getD i 0 =
        if i < out.length ∧ (i / 4 % bw = x1 ∨ i / 4 % bw = x2) ∧ a ≤ i / 4 / bw ∧
            i / 4 / bw < a + n then
          [b, g, r, 255].getD (i % 4) 0
        else out.getD i 0 := by
  induction n with
  | zero =>
    intro a out i _ _
    rw [show List.range' a 0 = [] from rfl, List.foldl_nil, if_neg]
    rintro ⟨-, -, h1, h2⟩
    omega
  | succ m ih =>
    intro a out i hx1 hx2
    simp only [List.range'_succ, List.foldl_cons]
    rw [ih (a + 1) _ i hx1 hx2]
    simp only [length_set_color]
    rw [getD_set_color', getD_set_color']
    simp only [length_set_color]
    have hit2 := hit_iff bw a x2 i hx2
    have hit1 := hit_iff bw a x1 i hx1
    by_cases hC : a + 1 ≤ i / 4 / bw ∧ i / 4 / bw < a + 1 + m
    · by_cases hT : i < out.length ∧ (i / 4 % bw = x1 ∨ i / 4 % bw = x2)
      · have e1 : i < out.length ∧ (i / 4 % bw = x1 ∨ i / 4 % bw = x2) ∧
            a + 1 ≤ i / 4 / bw ∧ i / 4 / bw < a + 1 + m := ⟨hT.1, hT.2, hC.1, hC.2⟩
        have e2 : i < out.length ∧ (i / 4 % bw = x1 ∨ i / 4 % bw = x2) ∧
            a ≤ i / 4 / bw ∧ i / 4 / bw < a + (m + 1) := ⟨hT.1, hT.2, by omega, by omega⟩
        rw [if_pos e1, if_pos e2]
      · have e1 : ¬(i < out.length ∧ (i / 4 % bw = x1 ∨ i / 4 % bw = x2) ∧
            a + 1 ≤ i / 4 / bw ∧ i / 4 / bw < a + 1 + m) := fun hh => hT ⟨hh.1, hh.2.1⟩
        have e2 : ¬(a * bw * 4 + x2 * 4 ≤ i ∧ i < a * bw * 4 + x2 * 4 + 4 ∧
            i < out.length) := fun hh => by have h := hit2.mp ⟨hh.1, hh.2.1⟩; omega
        have e3 : ¬(a * bw * 4 + x1 * 4 ≤ i ∧ i < a * bw * 4 + x1 * 4 + 4 ∧
            i < out.length) := fun hh => by have h := hit1.mp ⟨hh.1, hh.2.1⟩; omega
        have e4 : ¬(i < out.length ∧ (i / 4 % bw = x1 ∨ i / 4 % bw = x2) ∧
            a ≤ i / 4 / bw ∧ i / 4 / bw < a + (m + 1)) := fun hh => hT ⟨hh.1, hh.2.1⟩
        rw [if_neg e1, if_neg e2, if_neg e3, if_neg e4]
    · by_cases hA : i / 4 / bw = a ∧ i < out.length ∧ (i / 4 % bw = x1 ∨ i / 4 % bw = x2)
      · have e1 : ¬(i < out.length ∧ (i / 4 % bw = x1 ∨ i / 4 % bw = x2) ∧
            a + 1 ≤ i / 4 / bw ∧ i / 4 / bw < a + 1 + m) := fun hh => by omega
        have e2 : i < out.length ∧ (i / 4 % bw = x1 ∨ i / 4 % bw = x2) ∧
            a ≤ i / 4 / bw ∧ i / 4 / bw < a + (m + 1) := ⟨hA.2.1, hA.2.2, by omega, by omega⟩
        rw [if_neg e1, if_pos e2]
        by_cases hpx2 : i / 4 % bw = x2
        · have hw2 := hit2.mpr ⟨hpx2, hA.1⟩
          have e5 : a * bw * 4 + x2 * 4 ≤ i ∧ i < a * bw * 4 + x2 * 4 + 4 ∧
              i < out.length := ⟨hw2.1, hw2.2, hA.2.1⟩
          rw [if_pos e5, sub_eq_mod bw a x2 i hx2 hpx2 hA.1]
        · have hpx1 : i / 4 % bw = x1 := by
            rcases hA.2.2 with h | h
            · exact h
            · exact absurd h hpx2
          have hw1 := hit1.mpr ⟨hpx1, hA.1⟩
          have e5 : ¬(a * bw * 4 + x2 * 4 ≤ i ∧ i < a * bw * 4 + x2 * 4 + 4 ∧
              i < out.length) := fun hh => hpx2 (hit2.mp ⟨hh.1, hh.2.1⟩).1
          have e6 : a * bw * 4 + x1 * 4 ≤ i ∧ i < a * bw * 4 + x1 * 4 + 4 ∧
              i < out.length := ⟨hw1.1, hw1.2, hA.2.1⟩
          rw [if_neg e5, if_pos e6, sub_eq_mod bw a x1 i hx1 hpx1 hA.1]
      · have e1 : ¬(i < out.length ∧ (i / 4 % bw = x1 ∨ i / 4 % bw = x2) ∧
            a + 1 ≤ i / 4 / bw ∧ i / 4 / bw < a + 1 + m) := fun hh => hC ⟨hh.2.2.1, hh.2.2.2⟩
        have e2 : ¬(a * bw * 4 + x2 * 4 ≤ i ∧ i < a * bw * 4 + x2 * 4 + 4 ∧
            i < out.length) := fun hh => by
          have h := hit2.mp ⟨hh.1, hh.2.1⟩
          exact hA ⟨h.2, hh.2.2, Or.inr h.1⟩
        have e3 : ¬(a * bw * 4 + x1 * 4 ≤ i ∧ i < a * bw * 4 + x1 * 4 + 4 ∧
            i < out.length) := fun hh => by
          have h := hit1.mp ⟨hh.1, hh.2.1⟩
          exact hA ⟨h.2, hh.2.2, Or.inl h.1⟩
        have e4 : ¬(i < out.length ∧ (i / 4 % bw = x1 ∨ i / 4 % bw = x2) ∧
            a ≤ i / 4 / bw ∧ i / 4 / bw < a + (m + 1)) := fun hh => by
          rcases eq_or_ne (i / 4 / bw) a with he | hne
          · exact hA ⟨he, hh.1, hh.2.1⟩
          · exact hC ⟨by omega, by omega⟩
        rw [if_neg e1, if_neg e2, if_neg e3, if_neg e4]

theorem getD_drawRows (out : List Nat) (x1 y1 x2 y2 bw r g b i : Nat) (hbw : x2 ≤ bw) :
    (Quadtree.drawRows out x1 y1 x2 y2 bw r g b).getD i 0 =
      if i < out.length ∧ x1 ≤ i / 4 % bw ∧ i / 4 % bw < x2 ∧
          (i / 4 / bw = y1 ∨ i / 4 / bw = y2) then
        [b, g, r, 255].getD (i % 4) 0
      else out.getD i 0 := by
  unfold Quadtree.drawRows
  rw [getD_rowsAux y1 y2 bw r g b (x2 - x1) x1 out i (fun x h1 h2 => by omega)]
  rcases le_or_lt x1 x2 with h | h
  · rw [show x1 + (x2 - x1) = x2 by omega]
  · rw [if_neg (by omega), if_neg (by omega)]

theorem getD_drawCols (out : List Nat) (x1 y1 x2 y2 bw r g b i : Nat) (hx1 : x1 < bw)
    (hx2 : x2 < bw) :
    (Quadtree.drawCols out x1 y1 x2 y2 bw r g b).getD i 0 =
      if i < out.length ∧ (i / 4 % bw = x1 ∨ i / 4 % bw = x2) ∧ y1 ≤ i / 4 / bw ∧
          i / 4 / bw < y2 then
        [b, g, r, 255].getD (i % 4) 0
      else out.getD i 0 := by
  unfold Quadtree.drawCols
  rw [getD_colsAux x1 x2 bw r g b (y2 - y1) y1 out i hx1 hx2]
  rcases le_or_lt y1 y2 with h | h
  · rw [show y1 + (y2 - y1) = y2 by omega]
  · rw [if_neg (by omega), if_neg (by omega)]

theorem length_drawRows (out : List Nat) (x1 y1 x2 y2 bw r g b : Nat) :
    (Quadtree.drawRows out x1 y1 x2 y2 bw r g b).length = out.length := by
  unfold Quadtree.drawRows
  generalize List.range' x1 (x2 - x1) = l
  induction l generalizing out with
  | nil => rfl
  | cons hd tl ih => rw [List.foldl_cons, ih]; simp [length_set_color]

theorem length_drawCols (out : List Nat) (x1 y1 x2 y2 bw r g b : Nat) :
    (Quadtree.drawCols out x1 y1 x2 y2 bw r g b).length = out.length := by
  unfold Quadtree.drawCols
  generalize List.range' y1 (y2 - y1) = l
  induction l generalizing out with
  | nil => rfl
  | cons hd tl ih => rw [List.foldl_cons, ih]; simp [length_set_color]

/-! ### The averaging step -/

theorem pixCount_eq (x1 y1 x2 y2 : Nat) :
    Quadtree.pixCount x1 y1 x2 y2 = (y2 - y1) * (x2 - x1) := by
  unfold Quadtree.pixCount
  simp [Finset.sum_const, Nat.card_Ico]

theorem checkedDivD_eq_div (a b : Nat) : Quadtree.checkedDivD a b = a / b := by
  unfold Quadtree.checkedDivD
  split_ifs with h
  · subst h
    simp
  · rfl

theorem chanSum_le (input : List Nat) (x1 y1 x2 y2 bw c : Nat)
    (hb : ∀ v ∈ input, v < 256) :
    Quadtree.chanSum input x1 y1 x2 y2 bw c ≤ 255 * Quadtree.pixCount x1 y1 x2 y2 := by
  unfold Quadtree.chanSum Quadtree.pixCount
  rw [Finset.mul_sum]
  refine Finset.sum_le_sum fun y _ => ?_
  rw [Finset.mul_sum]
  refine Finset.sum_le_sum fun x _ => ?_
  have h := getD_lt_256 input hb (y * bw * 4 + x * 4 + c)
  omega

theorem avgChan_le (input : List Nat) (x1 y1 x2 y2 bw c : Nat)
    (hb : ∀ v ∈ input, v < 256) (hcnt : Quadtree.pixCount x1 y1 x2 y2 < Quadtree.U32) :
    Quadtree.avgChan input x1 y1 x2 y2 bw c ≤ 255 := by
  unfold Quadtree.avgChan
  rw [checkedDivD_eq_div, Nat.mod_eq_of_lt hcnt]
  rcases Nat.eq_zero_or_pos (Quadtree.pixCount x1 y1 x2 y2) with h | h
  · simp [h]
  · have h1 : Quadtree.chanSum input x1 y1 x2 y2 bw c % Quadtree.U32 ≤
        Quadtree.chanSum input x1 y1 x2 y2 bw c := Nat.mod_le _ _
    have h2 := chanSum_le input x1 y1 x2 y2 bw c hb
    calc Quadtree.chanSum input x1 y1 x2 y2 bw c % Quadtree.U32 /
        Quadtree.pixCount x1 y1 x2 y2
        ≤ 255 * Quadtree.pixCount x1 y1 x2 y2 / Quadtree.pixCount x1 y1 x2 y2 :=
          Nat.div_le_div_right (by omega)
      _ = 255 := Nat.mul_div_cancel _ h

/-! ### A large all-white rectangle overflowing the u32 accumulators -/

theorem bigChanSum (c : Nat) (hc : c < 4) :
    Quadtree.chanSum bigInput 0 0 4200 4200 4201 c = 4498200000 := by
  unfold Quadtree.chanSum bigInput
  have h : ∀ y ∈ Finset.Ico 0 4200, ∀ x ∈ Finset.Ico 0 4200,
      (List.replicate (4201 * 4201 * 4) 255).getD (y * 4201 * 4 + x * 4 + c) 0 = 255 := by
    intro y hy x hx
    rw [getD_replicate, if_pos]
    have hy1 : y < 4201 := by
      simp only [Finset.mem_Ico] at hy
      omega
    have hx1 : x < 4201 := by
      simp only [Finset.mem_Ico] at hx
      omega
    exact index_lt 4201 4201 x y c hx1 hy1 hc
  rw [Finset.sum_congr rfl fun y hy => Finset.sum_congr rfl fun x hx => h y hy x hx]
  simp [Finset.sum_const, Nat.card_Ico]

theorem big_avgChan : Quadtree.avgChan bigInput 0 0 4200 4200 4201 0 = 11 := by
  unfold Quadtree.avgChan
  rw [bigChanSum 0 (by norm_num), pixCount_eq]
  norm_num [Quadtree.checkedDivD, Quadtree.U32]

theorem specMean_eq (input : List Nat) (x1 y1 x2 y2 bw c : Nat) :
    Quadtree.specMean input x1 y1 x2 y2 bw c =
      Quadtree.chanSum input x1 y1 x2 y2 bw c / Quadtree.pixCount x1 y1 x2 y2 := by
  rw [pixCount_eq]
  unfold Quadtree.specMean Quadtree.chanSum
  try rw [Finset.card_product, Nat.card_Ico, Nat.card_Ico]
  try rw [Finset.sum_product]

theorem big_specMean : Quadtree.specMean bigInput 0 0 4200 4200 4201 0 = 255 := by
  rw [specMean_eq, bigChanSum 0 (by norm_num), pixCount_eq]
  try norm_num

/-! ### A 4294967297 by 1 rectangle wrapping the u32 pixel counter -/

theorem cxInput_getD (i : Nat) (hi : i < 4294967298 * 2 * 4) :
    Quadtree.cxInput.getD i 0 = if i = 0 ∨ i = 4 then 0 else 255 := by
  unfold Quadtree.cxInput
  rw [getD_set, getD_set, getD_replicate]
  simp only [List.length_set, List.length_replicate]
  split_ifs <;> first | rfl | omega

theorem cx_inner_red :
    (∑ x in Finset.range 4294967297,
      Quadtree.cxInput.getD (0 * 4294967298 * 4 + x * 4 + 0) 0) = 1095216660225 := by
  conv_lhs => rw [Finset.range_eq_Ico]
  have h1 : (∑ x in Finset.Ico (0:Nat) 2,
      Quadtree.cxInput.getD (0 * 4294967298 * 4 + x * 4 + 0) 0) = 0 := by
    conv_lhs => rw [Nat.Ico_zero_eq_range]
    simp only [Finset.sum_range_succ, Finset.sum_range_zero]
    rw [cxInput_getD (0 * 4294967298 * 4 + 0 * 4 + 0) (by norm_num),
      cxInput_getD (0 * 4294967298 * 4 + 1 * 4 + 0) (by norm_num)]
    norm_num
  have h2 : (∑ x in Finset.Ico (2:Nat) 4294967297,
      Quadtree.cxInput.getD (0 * 4294967298 * 4 + x * 4 + 0) 0) = 255 * 4294967295 := by
    have he : ∀ x ∈ Finset.Ico (2:Nat) 4294967297,
        Quadtree.cxInput.getD (0 * 4294967298 * 4 + x * 4 + 0) 0 = 255 := by
      intro x hx
      simp only [Finset.mem_Ico] at hx
      rw [cxInput_getD _ (by omega), if_neg (by omega)]
    rw [Finset.sum_congr rfl he, Finset.sum_const, Nat.card_Ico]
    norm_num
  have hsplit : (∑ x in Finset.Ico (0:Nat) 2,
        Quadtree.cxInput.getD (0 * 4294967298 * 4 + x * 4 + 0) 0) +
      (∑ x in Finset.Ico (2:Nat) 4294967297,
        Quadtree.cxInput.getD (0 * 4294967298 * 4 + x * 4 + 0) 0) =
      ∑ x in Finset.Ico (0:Nat) 4294967297,
        Quadtree.cxInput.getD (0 * 4294967298 * 4 + x * 4 + 0) 0 :=
    Finset.sum_Ico_consecutive _ (by norm_num) (by norm_num)
  rw [← hsplit, h1, h2]

theorem cx_chanSum_red :
    Quadtree.chanSum Quadtree.cxInput 0 0 4294967297 1 4294967298 0 = 1095216660225 := by
  unfold Quadtree.chanSum
  conv_lhs => rw [Nat.Ico_zero_eq_range, Finset.sum_range_one]
  exact cx_inner_red

theorem cx_chanSum_gb (c : Nat) (hc : c = 1 ∨ c = 2) :
    Quadtree.chanSum Quadtree.cxInput 0 0 4294967297 1 4294967298 c = 1095216660735 := by
  unfold Quadtree.chanSum
  conv_lhs => rw [Nat.Ico_zero_eq_range, Finset.sum_range_one]
  have he : ∀ x ∈ Finset.range 4294967297,
      Quadtree.cxInput.getD (0 * 4294967298 * 4 + x * 4 + c) 0 = 255 := by
    intro x hx
    simp only [Finset.mem_range] at hx
    rw [cxInput_getD _ (by omega), if_neg (by omega)]
  rw [Finset.sum_congr rfl he, Finset.sum_const, Finset.card_range]
  norm_num

theorem cx_avg_red :
    Quadtree.avgChan Quadtree.cxInput 0 0 4294967297 1 4294967298 0 = 4294967041 := by
  unfold Quadtree.avgChan
  rw [cx_chanSum_red, pixCount_eq]
  try norm_num [Quadtree.checkedDivD, Quadtree.U32]

theorem cx_avg_gb (c : Nat) (hc : c = 1 ∨ c = 2) :
    Quadtree.avgChan Quadtree.cxInput 0 0 4294967297 1 4294967298 c = 255 := by
  unfold Quadtree.avgChan
  rw [cx_chanSum_gb c hc, pixCount_eq]
  try norm_num [Quadtree.checkedDivD, Quadtree.U32]

/-! ### Recursion: one-step unfolding, fuel sufficiency, divergence -/

theorem quadtree_succ (input : List Nat) (fuel : Nat) (output : List Nat)
    (x1 y1 x2 y2 bw ct ms : Nat) :
    Quadtree.quadtree input (fuel + 1) output x1 y1 x2 y2 bw ct ms =
      if Quadtree.abs_diff x1 x2 > ms ∧ Quadtree.abs_diff y1 y2 > ms then
        (Quadtree.quadtree input fuel
            (Quadtree.renderStep input output x1 y1 x2 y2 bw ct)
            x1 y1 ((x1 + x2) / 2) ((y1 + y2) / 2) bw ct ms).bind fun o1 =>
        (Quadtree.quadtree input fuel o1 ((x1 + x2) / 2) y1 x2 ((y1 + y2) / 2) bw ct
            ms).bind fun o2 =>
        (Quadtree.quadtree input fuel o2 x1 ((y1 + y2) / 2) ((x1 + x2) / 2) y2 bw ct
            ms).bind fun o3 =>
        Quadtree.quadtree input fuel o3 ((x1 + x2) / 2) ((y1 + y2) / 2) x2 y2 bw ct ms
      else some (Quadtree.renderStep input output x1 y1 x2 y2 bw ct) := rfl

theorem abs_diff_of_le (a b : Nat) (h : a ≤ b) : Quadtree.abs_diff a b = b - a := by
  unfold Quadtree.abs_diff
  split_ifs <;> omega

theorem bind_eq_none_of (x : Option (List Nat)) (f : List Nat → Option (List Nat))
    (h : ∀ a, f a = none) : x.bind f = none := by
  cases x <;> simp [h]

theorem quadtree_fuel_sufficient (input : List Nat) (bw ct ms : Nat) (hms : 1 ≤ ms) :
    ∀ (fuel : Nat) (x1 y1 x2 y2 : Nat) (out : List Nat), x1 ≤ x2 → y1 ≤ y2 →
      max (x2 - x1) (y2 - y1) < fuel →
      (Quadtree.quadtree input fuel out x1 y1 x2 y2 bw ct ms).isSome = true := by
  intro fuel
  induction fuel with
  | zero =>
    intro x1 y1 x2 y2 out _ _ hf
    omega
  | succ n ih =>
    intro x1 y1 x2 y2 out hx hy hf
    rw [quadtree_succ]
    by_cases hc : Quadtree.abs_diff x1 x2 > ms ∧ Quadtree.abs_diff y1 y2 > ms
    · obtain ⟨hc1, hc2⟩ := hc
      rw [abs_diff_of_le x1 x2 hx] at hc1
      rw [abs_diff_of_le y1 y2 hy] at hc2
      rw [if_pos ⟨by rw [abs_diff_of_le x1 x2 hx]; omega,
        by rw [abs_diff_of_le y1 y2 hy]; omega⟩]
      have s1 := ih x1 y1 ((x1 + x2) / 2) ((y1 + y2) / 2)
        (Quadtree.renderStep input out x1 y1 x2 y2 bw ct) (by omega) (by omega) (by omega)
      obtain ⟨o1, e1⟩ := Option.isSome_iff_exists.mp s1
      rw [e1]
      simp only [Option.some_bind]
      have s2 := ih ((x1 + x2) / 2) y1 x2 ((y1 + y2) / 2) o1 (by omega) (by omega) (by omega)
      obtain ⟨o2, e2⟩ := Option.isSome_iff_exists.mp s2
      rw [e2]
      simp only [Option.some_bind]
      have s3 := ih x1 ((y1 + y2) / 2) ((x1 + x2) / 2) y2 o2 (by omega) (by omega) (by omega)
      obtain ⟨o3, e3⟩ := Option.isSome_iff_exists.mp s3
      rw [e3]
      simp only [Option.some_bind]
      exact ih ((x1 + x2) / 2) ((y1 + y2) / 2) x2 y2 o3 (by omega) (by omega) (by omega)
    · rw [if_neg hc]
      rfl

theorem quadtree_ms_zero_none (input : List Nat) (bw ct : Nat) :
    ∀ (fuel : Nat) (out : List Nat),
      Quadtree.quadtree input fuel out 0 0 1 1 bw ct 0 = none := by
  intro fuel
  induction fuel with
  | zero =>
    intro out
    rfl
  | succ n ih =>
    intro out
    rw [quadtree_succ,
      if_pos (show Quadtree.abs_diff 0 1 > 0 ∧ Quadtree.abs_diff 0 1 > 0 by decide)]
    rw [show ((0:Nat) + 1) / 2 = 0 by rfl]
    apply bind_eq_none_of
    intro o1
    apply bind_eq_none_of
    intro o2
    apply bind_eq_none_of
    intro o3
    exact ih o3

/-! ### The output invariant: pixels are untouched or get alpha 255 -/

theorem pixPreserve_refl (out : List Nat) : PixPreserve out out :=
  ⟨rfl, fun _ => Or.inl fun _ _ => rfl⟩

theorem pixPreserve_trans (a b c : List Nat) (h1 : PixPreserve a b) (h2 : PixPreserve b c) :
    PixPreserve a c := by
  refine ⟨h2.1.trans h1.1, fun p => ?_⟩
  rcases h2.2 p with h | h
  · rcases h1.2 p with h' | h'
    · exact Or.inl fun j hj => (h j hj).trans (h' j hj)
    · exact Or.inr ((h 3 (by norm_num)).trans h')
  · exact Or.inr h

theorem set_color_pixPreserve (out : List Nat) (q r g b : Nat) (h4 : 4 ∣ out.length) :
    PixPreserve out (Quadtree.set_color out (4 * q) r g b 255) := by
  refine ⟨length_set_color out _ r g b 255, fun p => ?_⟩
  rcases eq_or_ne p q with rfl | hne
  · by_cases hl : 4 * p + 3 < out.length
    · refine Or.inr ?_
      rw [getD_set_color]
      rw [if_neg (by omega), if_neg (by omega), if_neg (by omega), if_pos ⟨by omega, hl⟩]
    · obtain ⟨m, hm⟩ := h4
      refine Or.inl fun j hj => ?_
      rw [getD_set_color]
      rw [if_neg (by omega), if_neg (by omega), if_neg (by omega), if_neg (by omega)]
  · refine Or.inl fun j hj => ?_
    rw [getD_set_color]
    rw [if_neg (by omega), if_neg (by omega), if_neg (by omega), if_neg (by omega)]

theorem drawRows_pixPreserve (out : List Nat) (x1 y1 x2 y2 bw r g b : Nat)
    (h4 : 4 ∣ out.length) :
    PixPreserve out (Quadtree.drawRows out x1 y1 x2 y2 bw r g b) := by
  unfold Quadtree.drawRows
  generalize List.range' x1 (x2 - x1) = l
  revert out
  induction l with
  | nil =>
    intro out _
    exact pixPreserve_refl out
  | cons hd tl ih =>
    intro out h4
    simp only [List.foldl_cons]
    have e1 : y1 * bw * 4 + hd * 4 = 4 * (y1 * bw + hd) := by ring
    have e2 : y2 * bw * 4 + hd * 4 = 4 * (y2 * bw + hd) := by ring
    have s1 : PixPreserve out (Quadtree.set_color out (y1 * bw * 4 + hd * 4) r g b 255) := by
      rw [e1]
      exact set_color_pixPreserve out _ r g b h4
    have h4b : 4 ∣ (Quadtree.set_color out (y1 * bw * 4 + hd * 4) r g b 255).length := by
      rw [length_set_color]
      exact h4
    have s2 : PixPreserve (Quadtree.set_color out (y1 * bw * 4 + hd * 4) r g b 255)
        (Quadtree.set_color (Quadtree.set_color out (y1 * bw * 4 + hd * 4) r g b 255)
          (y2 * bw * 4 + hd * 4) r g b 255) := by
      rw [e2]
      exact set_color_pixPreserve _ _ r g b h4b
    have h4c : 4 ∣ (Quadtree.set_color
        (Quadtree.set_color out (y1 * bw * 4 + hd * 4) r g b 255)
        (y2 * bw * 4 + hd * 4) r g b 255).length := by
      rw [length_set_color, length_set_color]
      exact h4
    exact pixPreserve_trans _ _ _ (pixPreserve_trans _ _ _ s1 s2) (ih _ h4c)

theorem drawCols_pixPreserve (out : List Nat) (x1 y1 x2 y2 bw r g b : Nat)
    (h4 : 4 ∣ out.length) :
    PixPreserve out (Quadtree.drawCols out x1 y1 x2 y2 bw r g b) := by
  unfold Quadtree.drawCols
  generalize List.range' y1 (y2 - y1) = l
  revert out
  induction l with
  | nil =>
    intro out _
    exact pixPreserve_refl out
  | cons hd tl ih =>
    intro out h4
    simp only [List.foldl_cons]
    have e1 : hd * bw * 4 + x1 * 4 = 4 * (hd * bw + x1) := by ring
    have e2 : hd * bw * 4 + x2 * 4 = 4 * (hd * bw + x2) := by ring
    have s1 : PixPreserve out (Quadtree.set_color out (hd * bw * 4 + x1 * 4) r g b 255) := by
      rw [e1]
      exact set_color_pixPreserve out _ r g b h4
    have h4b : 4 ∣ (Quadtree.set_color out (hd * bw * 4 + x1 * 4) r g b 255).length := by
      rw [length_set_color]
      exact h4
    have s2 : PixPreserve (Quadtree.set_color out (hd * bw * 4 + x1 * 4) r g b 255)
        (Quadtree.set_color (Quadtree.set_color out (hd * bw * 4 + x1 * 4) r g b 255)
          (hd * bw * 4 + x2 * 4) r g b 255) := by
      rw [e2]
      exact set_color_pixPreserve _ _ r g b h4b
    have h4c : 4 ∣ (Quadtree.set_color
        (Quadtree.set_color out (hd * bw * 4 + x1 * 4) r g b 255)
        (hd * bw * 4 + x2 * 4) r g b 255).length := by
      rw [length_set_color, length_set_color]
      exact h4
    exact pixPreserve_trans _ _ _ (pixPreserve_trans _ _ _ s1 s2) (ih _ h4c)

theorem renderStep_pixPreserve (input out : List Nat) (x1 y1 x2 y2 bw ct : Nat)
    (h4 : 4 ∣ out.length) :
    PixPreserve out (Quadtree.renderStep input out x1 y1 x2 y2 bw ct) := by
  simp only [Quadtree.renderStep]
  split_ifs with h
  · refine pixPreserve_trans _ _ _ (drawRows_pixPreserve out x1 y1 x2 y2 bw _ _ _ h4)
      (drawCols_pixPreserve _ x1 y1 x2 y2 bw _ _ _ ?_)
    rw [length_drawRows]
    exact h4
  · exact pixPreserve_refl out

theorem quadtree_pixPreserve (input : List Nat) (bw ct ms : Nat) :
    ∀ (fuel : Nat) (x1 y1 x2 y2 : Nat) (out out' : List Nat), 4 ∣ out.length →
      Quadtree.quadtree input fuel out x1 y1 x2 y2 bw ct ms = some out' →
      PixPreserve out out' := by
  intro fuel
  induction fuel with
  | zero =>
    intro x1 y1 x2 y2 out out' _ h
    exact Option.noConfusion h
  | succ n ih =>
    intro x1 y1 x2 y2 out out' h4 h
    rw [quadtree_succ] at h
    by_cases hc : Quadtree.abs_diff x1 x2 > ms ∧ Quadtree.abs_diff y1 y2 > ms
    · rw [if_pos hc] at h
      rw [Option.bind_eq_some] at h
      obtain ⟨o1, h1, h⟩ := h
      rw [Option.bind_eq_some] at h
      obtain ⟨o2, h2, h⟩ := h
      rw [Option.bind_eq_some] at h
      obtain ⟨o3, h3, h⟩ := h
      have p0 := renderStep_pixPreserve input out x1 y1 x2 y2 bw ct h4
      have h4a : 4 ∣ (Quadtree.renderStep input out x1 y1 x2 y2 bw ct).length := by
        rw [p0.1]
        exact h4
      have p1 := ih x1 y1 ((x1 + x2) / 2) ((y1 + y2) / 2) _ o1 h4a h1
      have h4b : 4 ∣ o1.length := by
        rw [p1.1]
        exact h4a
      have p2 := ih ((x1 + x2) / 2) y1 x2 ((y1 + y2) / 2) o1 o2 h4b h2
      have h4c : 4 ∣ o2.length := by
        rw [p2.1]
        exact h4b
      have p3 := ih x1 ((y1 + y2) / 2) ((x1 + x2) / 2) y2 o2 o3 h4c h3
      have h4d : 4 ∣ o3.length := by
        rw [p3.1]
        exact h4c
      have p4 := ih ((x1 + x2) / 2) ((y1 + y2) / 2) x2 y2 o3 out' h4d h
      exact pixPreserve_trans _ _ _ (pixPreserve_trans _ _ _
        (pixPreserve_trans _ _ _ (pixPreserve_trans _ _ _ p0 p1) p2) p3) p4
    · rw [if_neg hc] at h
      have he : Quadtree.renderStep input out x1 y1 x2 y2 bw ct = out' := by
        injection h
      rw [← he]
      exact renderStep_pixPreserve input out x1 y1 x2 y2 bw ct h4

/-! ### Frame property: pixels at or beyond the corner are never written -/

theorem renderStep_frame (input out : List Nat) (x1 y1 x2 y2 bw ct px py j : Nat)
    (hx : x1 ≤ x2) (hxw : x2 < bw) (hpx : x2 ≤ px) (hpxw : px < bw) (hpy : y2 ≤ py)
    (hj : j < 4) :
    (Quadtree.renderStep input out x1 y1 x2 y2 bw ct).getD (py * bw * 4 + px * 4 + j) 0 =
      out.getD (py * bw * 4 + px * 4 + j) 0 := by
  simp only [Quadtree.renderStep]
  split_ifs with h
  · obtain ⟨e1, e2, e3⟩ := index_form bw py px j hj hpxw
    rw [getD_drawCols _ x1 y1 x2 y2 bw _ _ _ _ (by omega) hxw]
    have hcol : ¬((py * bw * 4 + px * 4 + j) <
          (Quadtree.drawRows out x1 y1 x2 y2 bw
            (Quadtree.avgChan input x1 y1 x2 y2 bw 0 % 256)
            (Quadtree.avgChan input x1 y1 x2 y2 bw 1 % 256)
            (Quadtree.avgChan input x1 y1 x2 y2 bw 2 % 256)).length ∧
        ((py * bw * 4 + px * 4 + j) / 4 % bw = x1 ∨
          (py * bw * 4 + px * 4 + j) / 4 % bw = x2) ∧
        y1 ≤ (py * bw * 4 + px * 4 + j) / 4 / bw ∧
        (py * bw * 4 + px * 4 + j) / 4 / bw < y2) := by
      rintro ⟨-, -, -, hh⟩
      rw [e2] at hh
      omega
    rw [if_neg hcol]
    rw [getD_drawRows _ x1 y1 x2 y2 bw _ _ _ _ (by omega)]
    have hrow : ¬((py * bw * 4 + px * 4 + j) < out.length ∧
        x1 ≤ (py * bw * 4 + px * 4 + j) / 4 % bw ∧
        (py * bw * 4 + px * 4 + j) / 4 % bw < x2 ∧
        ((py * bw * 4 + px * 4 + j) / 4 / bw = y1 ∨
          (py * bw * 4 + px * 4 + j) / 4 / bw = y2)) := by
      rintro ⟨-, -, hh, -⟩
      rw [e1] at hh
      omega
    rw [if_neg hrow]
  · rfl

theorem quadtree_frame (input : List Nat) (bw ct ms : Nat) :
    ∀ (fuel : Nat) (x1 y1 x2 y2 px py j : Nat) (out out' : List Nat),
      x1 ≤ x2 → y1 ≤ y2 → x2 < bw → x2 ≤ px → px < bw → y2 ≤ py → j < 4 →
      Quadtree.quadtree input fuel out x1 y1 x2 y2 bw ct ms = some out' →
      out'.getD (py * bw * 4 + px * 4 + j) 0 = out.getD (py * bw * 4 + px * 4 + j) 0 := by
  intro fuel
  induction fuel with
  | zero =>
    intro x1 y1 x2 y2 px py j out out' _ _ _ _ _ _ _ h
    exact Option.noConfusion h
  | succ n ih =>
    intro x1 y1 x2 y2 px py j out out' hx hy hxw hpx hpxw hpy hj h
    rw [quadtree_succ] at h
    by_cases hc : Quadtree.abs_diff x1 x2 > ms ∧ Quadtree.abs_diff y1 y2 > ms
    · rw [if_pos hc] at h
      rw [Option.bind_eq_some] at h
      obtain ⟨o1, h1, h⟩ := h
      rw [Option.bind_eq_some] at h
      obtain ⟨o2, h2, h⟩ := h
      rw [Option.bind_eq_some] at h
      obtain ⟨o3, h3, h⟩ := h
      have hmx1 : x1 ≤ (x1 + x2) / 2 := by omega
      have hmx2 : (x1 + x2) / 2 ≤ x2 := by omega
      have hmy1 : y1 ≤ (y1 + y2) / 2 := by omega
      have hmy2 : (y1 + y2) / 2 ≤ y2 := by omega
      rw [ih ((x1 + x2) / 2) ((y1 + y2) / 2) x2 y2 px py j o3 out' (by omega) (by omega)
          hxw hpx hpxw hpy hj h,
        ih x1 ((y1 + y2) / 2) ((x1 + x2) / 2) y2 px py j o2 o3 (by omega) (by omega)
          (by omega) (by omega) hpxw hpy hj h3,
        ih ((x1 + x2) / 2) y1 x2 ((y1 + y2) / 2) px py j o1 o2 (by omega) (by omega)
          hxw hpx hpxw (by omega) hj h2,
        ih x1 y1 ((x1 + x2) / 2) ((y1 + y2) / 2) px py j _ o1 (by omega) (by omega)
          (by omega) (by omega) hpxw (by omega) hj h1,
        renderStep_frame input out x1 y1 x2 y2 bw ct px py j hx hxw hpx hpxw hpy hj]
    · rw [if_neg hc] at h
      have he : Quadtree.renderStep input out x1 y1 x2 y2 bw ct = out' := by
        injection h
      rw [← he, renderStep_frame input out x1 y1 x2 y2 bw ct px py j hx hxw hpx hpxw hpy hj]

/-! ### Values written by the border pass -/

theorem renderStep_writes (input out : List Nat) (x1 y1 x2 y2 bw ct px py j : Nat)
    (hx1 : x1 < bw) (hx2 : x2 < bw)
    (hcond : (Quadtree.avgChan input x1 y1 x2 y2 bw 0 + Quadtree.avgChan input x1 y1 x2 y2 bw 1 +
      Quadtree.avgChan input x1 y1 x2 y2 bw 2) % Quadtree.U32 > ct)
    (hj : j < 4) (hlen : py * bw * 4 + px * 4 + j < out.length)
    (hhit : (x1 ≤ px ∧ px < x2 ∧ (py = y1 ∨ py = y2)) ∨
      ((px = x1 ∨ px = x2) ∧ y1 ≤ py ∧ py < y2)) :
    (Quadtree.renderStep input out x1 y1 x2 y2 bw ct).getD (py * bw * 4 + px * 4 + j) 0 =
      [Quadtree.avgChan input x1 y1 x2 y2 bw 2 % 256,
        Quadtree.avgChan input x1 y1 x2 y2 bw 1 % 256,
        Quadtree.avgChan input x1 y1 x2 y2 bw 0 % 256, 255].getD j 0 := by
  have hpxw : px < bw := by
    rcases hhit with ⟨h1, h2, h3⟩ | ⟨h1, h2, h3⟩ <;> omega
  obtain ⟨e1, e2, e3⟩ := index_form bw py px j hj hpxw
  simp only [Quadtree.renderStep]
  rw [if_pos hcond]
  rw [getD_drawCols _ x1 y1 x2 y2 bw _ _ _ _ hx1 hx2]
  by_cases hcolP : (px = x1 ∨ px = x2) ∧ y1 ≤ py ∧ py < y2
  · have hcol : (py * bw * 4 + px * 4 + j) <
          (Quadtree.drawRows out x1 y1 x2 y2 bw
            (Quadtree.avgChan input x1 y1 x2 y2 bw 0 % 256)
            (Quadtree.avgChan input x1 y1 x2 y2 bw 1 % 256)
            (Quadtree.avgChan input x1 y1 x2 y2 bw 2 % 256)).length ∧
        ((py * bw * 4 + px * 4 + j) / 4 % bw = x1 ∨
          (py * bw * 4 + px * 4 + j) / 4 % bw = x2) ∧
        y1 ≤ (py * bw * 4 + px * 4 + j) / 4 / bw ∧
        (py * bw * 4 + px * 4 + j) / 4 / bw < y2 := by
      refine ⟨by rw [length_drawRows]; exact hlen, ?_, ?_, ?_⟩
      · rw [e1]
        exact hcolP.1
      · rw [e2]
        exact hcolP.2.1
      · rw [e2]
        exact hcolP.2.2
    rw [if_pos hcol, e3]
  · have hcol : ¬((py * bw * 4 + px * 4 + j) <
          (Quadtree.drawRows out x1 y1 x2 y2 bw
            (Quadtree.avgChan input x1 y1 x2 y2 bw 0 % 256)
            (Quadtree.avgChan input x1 y1 x2 y2 bw 1 % 256)
            (Quadtree.avgChan input x1 y1 x2 y2 bw 2 % 256)).length ∧
        ((py * bw * 4 + px * 4 + j) / 4 % bw = x1 ∨
          (py * bw * 4 + px * 4 + j) / 4 % bw = x2) ∧
        y1 ≤ (py * bw * 4 + px * 4 + j) / 4 / bw ∧
        (py * bw * 4 + px * 4 + j) / 4 / bw < y2) := by
      rintro ⟨-, hq1, hq2, hq3⟩
      rw [e1] at hq1
      rw [e2] at hq2 hq3
      exact hcolP ⟨hq1, hq2, hq3⟩
    rw [if_neg hcol]
    have hrowP : x1 ≤ px ∧ px < x2 ∧ (py = y1 ∨ py = y2) := by
      rcases hhit with h | h
      · exact h
      · exact absurd h hcolP
    rw [getD_drawRows _ x1 y1 x2 y2 bw _ _ _ _ (by omega)]
    have hrow : (py * bw * 4 + px * 4 + j) < out.length ∧
        x1 ≤ (py * bw * 4 + px * 4 + j) / 4 % bw ∧
        (py * bw * 4 + px * 4 + j) / 4 % bw < x2 ∧
        ((py * bw * 4 + px * 4 + j) / 4 / bw = y1 ∨
          (py * bw * 4 + px * 4 + j) / 4 / bw = y2) := by
      refine ⟨hlen, ?_, ?_, ?_⟩
      · rw [e1]
        exact hrowP.1
      · rw [e1]
        exact hrowP.2.1
      · rw [e2]
        rcases hrowP.2.2 with h | h
        · exact Or.inl h
        · exact Or.inr h
    rw [if_pos hrow, e3]

/-! ### Claim theorems -/

/-- C1 (amended): provided the rectangle is small enough that the u32 channel
accumulators cannot wrap (255 times the pixel count is below 2^32), the average
computed by the code over `y` in `[y1, y2)`, `x` in `[x1, x2)` (alpha not
sampled, integer division truncated toward zero, zero pixels giving zero)
equals the arithmetic mean, truncated toward zero, of the channel values
strictly inside `[x1, x2) × [y1, y2)`.  Without that bound the u32 sums wrap
and the equality fails (see the counterexample). -/
theorem avgChan_eq_specMean (input : List Nat) (x1 y1 x2 y2 bw c : Nat)
    (hb : ∀ v ∈ input, v < 256)
    (hcnt : 255 * Quadtree.pixCount x1 y1 x2 y2 < Quadtree.U32) :
    Quadtree.avgChan input x1 y1 x2 y2 bw c = Quadtree.specMean input x1 y1 x2 y2 bw c := by
  have hS := chanSum_le input x1 y1 x2 y2 bw c hb
  have hU : Quadtree.U32 = 4294967296 := by norm_num [Quadtree.U32]
  have hSU : Quadtree.chanSum input x1 y1 x2 y2 bw c < Quadtree.U32 := by omega
  have hCU : Quadtree.pixCount x1 y1 x2 y2 < Quadtree.U32 := by omega
  unfold Quadtree.avgChan
  rw [checkedDivD_eq_div, Nat.mod_eq_of_lt hSU, Nat.mod_eq_of_lt hCU, specMean_eq]

/-- C1 witness: on a 2 by 2 all-white image the computed average of the single
sampled pixel equals the specification mean. -/
theorem avgChan_eq_specMean_witness :
    255 * Quadtree.pixCount 0 0 1 1 < Quadtree.U32 ∧
      Quadtree.avgChan (List.replicate 16 255) 0 0 1 1 2 0 =
        Quadtree.specMean (List.replicate 16 255) 0 0 1 1 2 0 :=
  ⟨by decide, avgChan_eq_specMean (List.replicate 16 255) 0 0 1 1 2 0 (by decide) (by decide)⟩

/-- C1 counterexample: on the 4200 by 4200 all-white rectangle the u32 channel
sums wrap around 2^32, so the computed average (11) is not the truncated
arithmetic mean of the sampled channel values (255). -/
theorem avgChan_mean_counterexample :
    Quadtree.avgChan Quadtree.bigInput 0 0 4200 4200 4201 0 ≠
      Quadtree.specMean Quadtree.bigInput 0 0 4200 4200 4201 0 := by
  rw [big_avgChan, big_specMean]
  norm_num

/-- C2 (amended): under the stated buffer preconditions, and provided the
rectangle has fewer than 2^32 pixels (so the u32 pixel counter cannot wrap,
each average fits a byte, and the u32 sum of the averages cannot wrap),
whenever the sum of the three averaged channel values strictly exceeds the
threshold, every byte of every border pixel of the rectangle — row `y1` and
row `y2` for `x` in `[x1, x2)`, column `x1` and column `x2` for `y` in
`[y1, y2)` — holds the average color with byte0 = blue, byte1 = green,
byte2 = red, byte3 = alpha = 255; and when the sum is at most the threshold,
the call writes nothing.  Without the pixel-count bound the original claim
fails (see the counterexample). -/
theorem renderStep_border_spec (input output : List Nat) (x1 y1 x2 y2 bw hgt ct : Nat)
    (hb : ∀ v ∈ input, v < 256) (hcnt : Quadtree.pixCount x1 y1 x2 y2 < Quadtree.U32)
    (hx : x1 ≤ x2) (hxw : x2 < bw) (hy : y1 ≤ y2) (hyh : y2 < hgt)
    (hlen : output.length = bw * hgt * 4) :
    Quadtree.BorderSpec input output x1 y1 x2 y2 bw ct := by
  have hU : Quadtree.U32 = 4294967296 := by norm_num [Quadtree.U32]
  have ha0 := avgChan_le input x1 y1 x2 y2 bw 0 hb hcnt
  have ha1 := avgChan_le input x1 y1 x2 y2 bw 1 hb hcnt
  have ha2 := avgChan_le input x1 y1 x2 y2 bw 2 hb hcnt
  constructor
  · intro hgt0 px py j hj hhit
    have hpxw : px < bw := by
      rcases hhit with ⟨h1, h2, h3⟩ | ⟨h1, h2, h3⟩ <;> omega
    have hpyh : py < hgt := by
      rcases hhit with ⟨h1, h2, h3⟩ | ⟨h1, h2, h3⟩ <;> omega
    have hlenb : py * bw * 4 + px * 4 + j < output.length := by
      rw [hlen]
      exact index_lt bw hgt px py j hpxw hpyh hj
    have hmod : (Quadtree.avgChan input x1 y1 x2 y2 bw 0 +
        Quadtree.avgChan input x1 y1 x2 y2 bw 1 +
        Quadtree.avgChan input x1 y1 x2 y2 bw 2) % Quadtree.U32 > ct := by
      rw [Nat.mod_eq_of_lt (by omega)]
      omega
    have hw := renderStep_writes input output x1 y1 x2 y2 bw ct px py j (by omega) hxw hmod
      hj hlenb hhit
    rw [hw,
      Nat.mod_eq_of_lt (show Quadtree.avgChan input x1 y1 x2 y2 bw 2 < 256 by omega),
      Nat.mod_eq_of_lt (show Quadtree.avgChan input x1 y1 x2 y2 bw 1 < 256 by omega),
      Nat.mod_eq_of_lt (show Quadtree.avgChan input x1 y1 x2 y2 bw 0 < 256 by omega)]
  · intro hle
    have hmd := Nat.mod_le (Quadtree.avgChan input x1 y1 x2 y2 bw 0 +
      Quadtree.avgChan input x1 y1 x2 y2 bw 1 +
      Quadtree.avgChan input x1 y1 x2 y2 bw 2) Quadtree.U32
    simp only [Quadtree.renderStep]
    have hng : ¬((Quadtree.avgChan input x1 y1 x2 y2 bw 0 +
        Quadtree.avgChan input x1 y1 x2 y2 bw 1 +
        Quadtree.avgChan input x1 y1 x2 y2 bw 2) % Quadtree.U32 > ct) := by omega
    rw [if_neg hng]

/-- C2 witness: the 2 by 2 all-white image over rectangle (0,0)-(1,1) with
threshold 280 satisfies the border specification. -/
theorem renderStep_border_spec_witness :
    Quadtree.pixCount 0 0 1 1 < Quadtree.U32 ∧
      Quadtree.BorderSpec (List.replicate 16 255) (List.replicate 16 0) 0 0 1 1 2 280 :=
  ⟨by decide, renderStep_border_spec (List.replicate 16 255) (List.replicate 16 0)
    0 0 1 1 2 2 280 (by decide) (by decide) (by decide) (by decide) (by decide) (by decide)
    (by decide)⟩

/-- C2 counterexample: a 4294967297 by 1 rectangle (2^32 + 1 pixels, within a
valid all-bytes-below-256 buffer of a 4294967298 by 2 image) whose red bytes
at pixels (0,0) and (1,0) are zero.  The u32 pixel counter wraps to 1 and the
wrapped red sum is 2^32 - 255, so the averaged channel values are
(4294967041, 255, 255): their sum 4294967551 strictly exceeds the threshold
280, yet the code compares the wrapped u32 sum 255, draws nothing, and the
alpha byte of the border pixel (0,0) stays 0 instead of 255. -/
theorem renderStep_border_counterexample :
    (280 < Quadtree.avgChan Quadtree.cxInput 0 0 4294967297 1 4294967298 0 +
        Quadtree.avgChan Quadtree.cxInput 0 0 4294967297 1 4294967298 1 +
        Quadtree.avgChan Quadtree.cxInput 0 0 4294967297 1 4294967298 2) ∧
      Quadtree.renderStep Quadtree.cxInput Quadtree.cxOutput 0 0 4294967297 1 4294967298 280 =
        Quadtree.cxOutput ∧
      (Quadtree.renderStep Quadtree.cxInput Quadtree.cxOutput 0 0 4294967297 1 4294967298
          280).getD (0 * 4294967298 * 4 + 0 * 4 + 3) 0 = 0 := by
  have h0 := cx_avg_red
  have h1 := cx_avg_gb 1 (Or.inl rfl)
  have h2 := cx_avg_gb 2 (Or.inr rfl)
  have hU : Quadtree.U32 = 4294967296 := by norm_num [Quadtree.U32]
  have hstep : Quadtree.renderStep Quadtree.cxInput Quadtree.cxOutput
      0 0 4294967297 1 4294967298 280 = Quadtree.cxOutput := by
    simp only [Quadtree.renderStep]
    rw [h0, h1, h2]
    have hng : ¬((4294967041 + 255 + 255) % Quadtree.U32 > 280) := by
      rw [hU]
      norm_num
    rw [if_neg hng]
  refine ⟨by omega, hstep, ?_⟩
  rw [hstep]
  unfold Quadtree.cxOutput
  rw [show (0 * 4294967298 * 4 + 0 * 4 + 3 : Nat) = 3 by norm_num, getD_replicate]
  rw [if_pos (by norm_num)]

/-- C3: a call recurses exactly when both `abs_diff x1 x2 > rect_min_size` and
`abs_diff y1 y2 > rect_min_size`; in that case the midpoints are the floor
halves `(x1 + x2) / 2` and `(y1 + y2) / 2` and exactly four recursive calls
are made, in the order top-left, top-right, bottom-left, bottom-right, with
all other parameters unchanged; otherwise the call returns after the border
pass with no recursion. -/
theorem quadtree_recursion_structure (input : List Nat) (fuel : Nat) (output : List Nat)
    (x1 y1 x2 y2 bw ct ms : Nat) :
    Quadtree.quadtree input (fuel + 1) output x1 y1 x2 y2 bw ct ms =
      if Quadtree.abs_diff x1 x2 > ms ∧ Quadtree.abs_diff y1 y2 > ms then
        (Quadtree.quadtree input fuel
            (Quadtree.renderStep input output x1 y1 x2 y2 bw ct)
            x1 y1 ((x1 + x2) / 2) ((y1 + y2) / 2) bw ct ms).bind fun o1 =>
        (Quadtree.quadtree input fuel o1 ((x1 + x2) / 2) y1 x2 ((y1 + y2) / 2) bw ct
            ms).bind fun o2 =>
        (Quadtree.quadtree input fuel o2 x1 ((y1 + y2) / 2) ((x1 + x2) / 2) y2 bw ct
            ms).bind fun o3 =>
        Quadtree.quadtree input fuel o3 ((x1 + x2) / 2) ((y1 + y2) / 2) x2 y2 bw ct ms
      else some (Quadtree.renderStep input output x1 y1 x2 y2 bw ct) := rfl

/-- C4: when the sum of the three averaged channel values is exactly equal to
the threshold, no border is drawn: the comparison is strict. -/
theorem threshold_eq_no_border (input output : List Nat) (x1 y1 x2 y2 bw ct : Nat)
    (h : Quadtree.avgChan input x1 y1 x2 y2 bw 0 + Quadtree.avgChan input x1 y1 x2 y2 bw 1 +
      Quadtree.avgChan input x1 y1 x2 y2 bw 2 = ct) :
    Quadtree.renderStep input output x1 y1 x2 y2 bw ct = output := by
  have hmd := Nat.mod_le (Quadtree.avgChan input x1 y1 x2 y2 bw 0 +
    Quadtree.avgChan input x1 y1 x2 y2 bw 1 +
    Quadtree.avgChan input x1 y1 x2 y2 bw 2) Quadtree.U32
  simp only [Quadtree.renderStep]
  have hng : ¬((Quadtree.avgChan input x1 y1 x2 y2 bw 0 +
      Quadtree.avgChan input x1 y1 x2 y2 bw 1 +
      Quadtree.avgChan input x1 y1 x2 y2 bw 2) % Quadtree.U32 > ct) := by omega
  rw [if_neg hng]

/-- C4 witness: a uniform image with every byte 93 averages to (93, 93, 93),
whose sum 279 equals the threshold 279, and the output stays untouched. -/
theorem threshold_eq_no_border_witness :
    (Quadtree.avgChan (List.replicate 16 93) 0 0 1 1 2 0 +
        Quadtree.avgChan (List.replicate 16 93) 0 0 1 1 2 1 +
        Quadtree.avgChan (List.replicate 16 93) 0 0 1 1 2 2 = 279) ∧
      Quadtree.renderStep (List.replicate 16 93) (List.replicate 16 0) 0 0 1 1 2 279 =
        List.replicate 16 0 :=
  ⟨by decide,
    threshold_eq_no_border (List.replicate 16 93) (List.replicate 16 0) 0 0 1 1 2 279
      (by decide)⟩

/-- C5: a degenerate rectangle with `x1 = x2` or `y1 = y2` samples zero pixels;
the checked division never faults and every averaged channel is zero. -/
theorem avgChan_zero_area (input : List Nat) (x1 y1 x2 y2 bw c : Nat)
    (h : x1 = x2 ∨ y1 = y2) :
    Quadtree.avgChan input x1 y1 x2 y2 bw c = 0 := by
  have hp : Quadtree.pixCount x1 y1 x2 y2 = 0 := by
    rw [pixCount_eq]
    rcases h with h | h <;> simp [h]
  unfold Quadtree.avgChan
  rw [hp]
  simp [Quadtree.checkedDivD]

/-- C5 witness: a zero-width rectangle on a concrete image averages to zero. -/
theorem avgChan_zero_area_witness :
    ((3:Nat) = 3 ∨ (0:Nat) = 2) ∧
      Quadtree.avgChan (List.replicate 16 255) 3 0 3 2 2 0 = 0 :=
  ⟨Or.inl rfl, avgChan_zero_area (List.replicate 16 255) 3 0 3 2 2 0 (Or.inl rfl)⟩

/-- C6: for a well-formed rectangle and `rect_min_size ≥ 1` the recursion
terminates — some amount of fuel runs it to completion, because each
recursive call strictly shrinks both extents. -/
theorem quadtree_terminates (input output : List Nat) (x1 y1 x2 y2 bw ct ms : Nat)
    (hms : 1 ≤ ms) (hx : x1 ≤ x2) (hy : y1 ≤ y2) :
    Quadtree.Terminates input output x1 y1 x2 y2 bw ct ms :=
  ⟨max (x2 - x1) (y2 - y1) + 1,
    quadtree_fuel_sufficient input bw ct ms hms _ x1 y1 x2 y2 output hx hy (by omega)⟩

/-- C6 witness: the 2 by 2 all-white image terminates at rect-min-size 1. -/
theorem quadtree_terminates_witness :
    (1:Nat) ≤ 1 ∧
      Quadtree.Terminates (List.replicate 16 255) (List.replicate 16 0) 0 0 1 1 2 280 1 :=
  ⟨le_refl 1,
    quadtree_terminates (List.replicate 16 255) (List.replicate 16 0) 0 0 1 1 2 280 1
      (le_refl 1) (by omega) (by omega)⟩

/-- C7 counterexample: with `rect_min_size = 0` the recursion on the unit
rectangle (0,0)-(1,1) reproduces itself as its own fourth quadrant and never
finishes: no amount of fuel completes it. -/
theorem quadtree_minrect_zero_diverges :
    ¬ Quadtree.Terminates (List.replicate 16 255) (List.replicate 16 0) 0 0 1 1 2 280 0 := by
  intro ht
  unfold Quadtree.Terminates at ht
  obtain ⟨fuel, h⟩ := ht
  rw [quadtree_ms_zero_none (List.replicate 16 255) 2 280 fuel (List.replicate 16 0)] at h
  exact Bool.noConfusion h

/-- C7 (amended): the recursion runs to completion for every input satisfying
the preconditions with `rect_min_size ≥ 1`: any fuel above the larger extent
suffices.  For `rect_min_size = 0` the recursion need not terminate (see the
counterexample). -/
theorem quadtree_fuel_bound (input output : List Nat) (fuel x1 y1 x2 y2 bw ct ms : Nat)
    (hms : 1 ≤ ms) (hx : x1 ≤ x2) (hy : y1 ≤ y2)
    (hf : max (x2 - x1) (y2 - y1) < fuel) :
    (Quadtree.quadtree input fuel output x1 y1 x2 y2 bw ct ms).isSome = true :=
  quadtree_fuel_sufficient input bw ct ms hms fuel x1 y1 x2 y2 output hx hy hf

/-- C7 witness: fuel 2 completes the 2 by 2 run at rect-min-size 1. -/
theorem quadtree_fuel_bound_witness :
    max (1 - 0) (1 - 0) < 2 ∧
      (Quadtree.quadtree (List.replicate 16 255) 2 (List.replicate 16 0)
        0 0 1 1 2 280 1).isSome = true :=
  ⟨by decide,
    quadtree_fuel_bound (List.replicate 16 255) (List.replicate 16 0) 2 0 0 1 1 2 280 1
      (by decide) (by decide) (by decide) (by decide)⟩

/-- C8 (amended): the red, green and blue channel sums and the pixel count stay
below 2^32 provided the rectangle has at most 16843009 pixels (the largest
count with 255 * count < 2^32); beyond that the u32 accumulators can wrap
(see the counterexample). -/
theorem chanSum_no_overflow (input : List Nat) (x1 y1 x2 y2 bw c : Nat)
    (hb : ∀ v ∈ input, v < 256)
    (hcnt : Quadtree.pixCount x1 y1 x2 y2 ≤ 16843009) :
    Quadtree.chanSum input x1 y1 x2 y2 bw c < Quadtree.U32 ∧
      Quadtree.pixCount x1 y1 x2 y2 < Quadtree.U32 := by
  have h := chanSum_le input x1 y1 x2 y2 bw c hb
  have hU : Quadtree.U32 = 4294967296 := by norm_num [Quadtree.U32]
  omega

/-- C8 witness: the 2 by 2 all-white image stays far from the u32 bound. -/
theorem chanSum_no_overflow_witness :
    Quadtree.pixCount 0 0 1 1 ≤ 16843009 ∧
      (Quadtree.chanSum (List.replicate 16 255) 0 0 1 1 2 0 < Quadtree.U32 ∧
        Quadtree.pixCount 0 0 1 1 < Quadtree.U32) :=
  ⟨by decide, chanSum_no_overflow (List.replicate 16 255) 0 0 1 1 2 0 (by decide) (by decide)⟩

/-- C8 counterexample: the red channel sum of a 4200 by 4200 all-white
rectangle is 4498200000, which does not stay below 2^32 = 4294967296. -/
theorem chanSum_overflow_counterexample :
    ¬ (Quadtree.chanSum Quadtree.bigInput 0 0 4200 4200 4201 0 < Quadtree.U32) := by
  rw [bigChanSum 0 (by norm_num)]
  norm_num [Quadtree.U32]

/-- C9: a completed run started on a zero-initialized output buffer of the
input's length returns a buffer of that same length in which every 4-byte
pixel is either still all-zero or has its alpha byte equal to 255. -/
theorem quadtree_alpha_invariant (input : List Nat) (fuel x1 y1 x2 y2 bw ct ms : Nat)
    (out' : List Nat) (h4 : 4 ∣ input.length)
    (h : Quadtree.quadtree input fuel (List.replicate input.length 0) x1 y1 x2 y2 bw ct ms =
      some out') :
    out'.length = input.length ∧
      ∀ p : Nat, (∀ j, j < 4 → out'.getD (4 * p + j) 0 = 0) ∨
        out'.getD (4 * p + 3) 0 = 255 := by
  have hp := quadtree_pixPreserve input bw ct ms fuel x1 y1 x2 y2
    (List.replicate input.length 0) out' (by simpa using h4) h
  constructor
  · rw [hp.1]
    simp
  · intro p
    rcases hp.2 p with h' | h'
    · refine Or.inl fun j hj => ?_
      rw [h' j hj, getD_replicate]
      split_ifs <;> rfl
    · exact Or.inr h'

/-- C9 witness: a concrete completed 2 by 2 run on a zero-initialized buffer. -/
theorem quadtree_alpha_invariant_witness :
    (Quadtree.quadtree (List.replicate 16 255) 1
        (List.replicate (List.replicate (16:Nat) (255:Nat)).length 0) 0 0 1 1 2 280 1 =
      some [255, 255, 255, 255, 255, 255, 255, 255, 255, 255, 255, 255, 0, 0, 0, 0]) ∧
      (([255, 255, 255, 255, 255, 255, 255, 255, 255, 255, 255, 255, 0, 0, 0, 0] :
          List Nat).length = (List.replicate (16:Nat) (255:Nat)).length ∧
        ∀ p : Nat, (∀ j, j < 4 →
            ([255, 255, 255, 255, 255, 255, 255, 255, 255, 255, 255, 255, 0, 0, 0, 0] :
              List Nat).getD (4 * p + j) 0 = 0) ∨
          ([255, 255, 255, 255, 255, 255, 255, 255, 255, 255, 255, 255, 0, 0, 0, 0] :
            List Nat).getD (4 * p + 3) 0 = 255) :=
  ⟨by decide,
    quadtree_alpha_invariant (List.replicate 16 255) 1 0 0 1 1 2 280 1
      [255, 255, 255, 255, 255, 255, 255, 255, 255, 255, 255, 255, 0, 0, 0, 0]
      (by decide) (by decide)⟩

/-- C10: no call in the recursion ever writes a pixel at or beyond its own
corner `(x2, y2)`: after any completed run, every byte of every pixel
`(px, py)` with `px ≥ x2` and `py ≥ y2` is unchanged from the initial output
buffer — in particular the bottom-right corner pixel itself. -/
theorem quadtree_corner_untouched (input : List Nat) (fuel x1 y1 x2 y2 bw ct ms px py j : Nat)
    (out out' : List Nat) (hx : x1 ≤ x2) (hy : y1 ≤ y2) (hxw : x2 < bw)
    (hpx : x2 ≤ px) (hpxw : px < bw) (hpy : y2 ≤ py) (hj : j < 4)
    (h : Quadtree.quadtree input fuel out x1 y1 x2 y2 bw ct ms = some out') :
    out'.getD (py * bw * 4 + px * 4 + j) 0 = out.getD (py * bw * 4 + px * 4 + j) 0 :=
  quadtree_frame input bw ct ms fuel x1 y1 x2 y2 px py j out out' hx hy hxw hpx hpxw hpy
    hj h

/-- C10 witness: the bottom-right pixel (1,1) of the concrete 2 by 2 run keeps
its initial zero bytes. -/
theorem quadtree_corner_untouched_witness :
    (Quadtree.quadtree (List.replicate 16 255) 1 (List.replicate 16 0) 0 0 1 1 2 280 1 =
      some [255, 255, 255, 255, 255, 255, 255, 255, 255, 255, 255, 255, 0, 0, 0, 0]) ∧
      ([255, 255, 255, 255, 255, 255, 255, 255, 255, 255, 255, 255, 0, 0, 0, 0] :
          List Nat).getD (1 * 2 * 4 + 1 * 4 + 0) 0 =
        (List.replicate 16 0).getD (1 * 2 * 4 + 1 * 4 + 0) 0 :=
  ⟨by decide,
    quadtree_corner_untouched (List.replicate 16 255) 1 0 0 1 1 2 280 1 1 1 0
      (List.replicate 16 0)
      [255, 255, 255, 255, 255, 255, 255, 255, 255, 255, 255, 255, 0, 0, 0, 0]
      (by decide) (by decide) (by decide) (by decide) (by decide) (by decide) (by decide)
      (by decide)⟩

end Quadtree
